import Mathlib

/-!
Verification of the matching core of the Vietnamese Wordle assist tool
(`src/main.go`).  Strings are embedded as `List Char` (Go iterates strings
rune by rune, so a rune list is the faithful shallow embedding).  Go library
functions used by the source (`strings.Fields`, `strings.Split`,
`strings.Join`, `strings.ContainsRune`, `strconv.Atoi`, `strings.ToLower`,
`norm.NFD`, `unicode.Is(unicode.Mn, ·)`) are modelled below next to the
functions that call them.
-/

namespace WordleVN

/-- Model of Go `unicode.IsSpace` (restricted to the Latin-1 range, which is
the fast path of the Go implementation and covers every space character that
can occur in the dictionary and the queries). -/
def goIsSpace (c : Char) : Bool :=
  c = ' ' || c = '\t' || c = '\n' || c = '\x0b' || c = '\x0c' || c = '\r' ||
  c = '\u0085' || c = ' '

/-- Accumulator-passing worker for `fields`. -/
def fieldsAux : List Char → List Char → List (List Char)
  | [], acc => if acc = [] then [] else [acc.reverse]
  | c :: rest, acc =>
    if goIsSpace c then
      if acc = [] then fieldsAux rest [] else acc.reverse :: fieldsAux rest []
    else fieldsAux rest (c :: acc)

/-- Model of Go `strings.Fields`: split around runs of white space,
dropping empty fields. -/
def fields (s : List Char) : List (List Char) := fieldsAux s []

/-- Accumulator-passing worker for `splitOn`. -/
def splitOnAux (sep : Char) : List Char → List Char → List (List Char)
  | [], acc => [acc.reverse]
  | c :: rest, acc =>
    if c = sep then acc.reverse :: splitOnAux sep rest []
    else splitOnAux sep rest (c :: acc)

/-- Model of Go `strings.Split` with a one-character separator: empty parts
are kept, and splitting the empty string yields one empty part. -/
def splitOn (sep : Char) (s : List Char) : List (List Char) := splitOnAux sep s []

/-- Model of Go `strings.Join` with a one-character separator. -/
def joinWith (sep : Char) : List (List Char) → List Char
  | [] => []
  | [x] => x
  | x :: y :: rest => x ++ sep :: joinWith sep (y :: rest)

/-- `normalizeSpaces` from `src/main.go`:
`strings.Join(strings.Fields(s), " ")`. -/
def normalizeSpaces (s : List Char) : List Char := joinWith ' ' (fields s)

/-! ### The wildcard matcher (`matchWildcard`, second version, 4 arguments)

The Go loop over one syllable pair: a `*` cell records the word's character
in the wildcard accumulator, any other cell must equal the word's character.
`none` models the `return false` exits; `some ws` carries the characters
captured by wildcard cells, in order. -/

/-- Per-cell loop of `matchWildcard` over one syllable (pattern and word
characters already zipped; the syllable lengths are equal at the call site). -/
def collectCells : List (Char × Char) → Option (List Char)
  | [] => some []
  | (p, t) :: rest =>
    if p = '*' then (collectCells rest).map (fun ws => t :: ws)
    else if p = t then collectCells rest
    else none

/-- One syllable of `matchWildcard`: the rune-count guard followed by the
per-cell loop. -/
def matchSyl (pw tw : List Char) : Option (List Char) :=
  if pw.length = tw.length then collectCells (pw.zip tw) else none

/-- The syllable loop of `matchWildcard`: wildcard-captured characters of all
syllables are concatenated in order; any failing syllable fails the whole
match. -/
def matchAllSyl : List (List Char × List Char) → Option (List Char)
  | [] => some []
  | (pw, tw) :: rest =>
    match matchSyl pw tw with
    | none => none
    | some w => (matchAllSyl rest).map (fun ws => w ++ ws)

/-- `matchWildcard(pattern, text, required, excluded)` from `src/main.go`
(the four-argument version): space-normalize the pattern, split both pattern
and text on single spaces, compare syllable counts, run the per-syllable
loop, then check the required and excluded character sets against the
wildcard-captured characters only. -/
def matchWildcard (pattern text required excluded : List Char) : Bool :=
  let pattern2 := normalizeSpaces pattern
  let pWords := splitOn ' ' pattern2
  let tWords := splitOn ' ' text
  if pWords.length = tWords.length then
    match matchAllSyl (pWords.zip tWords) with
    | none => false
    | some wild =>
      required.all (fun ch => wild.contains ch) &&
      excluded.all (fun ch => !(wild.contains ch))
  else false

/-- The positional phase of `matchWildcard`: the syllable-count guard plus
the syllable loop, returning the wildcard-captured characters when the
template matches the word positionally and `none` otherwise. -/
def positionalCapture (pattern text : List Char) : Option (List Char) :=
  let pW := splitOn ' ' (normalizeSpaces pattern)
  let tW := splitOn ' ' text
  if pW.length = tW.length then matchAllSyl (pW.zip tW) else none

/-- Abbreviation for writing queries and words as string literals. -/
def strL (s : String) : List Char := s.data

/-! ### The legacy length dialect (`parsePattern`, `matchSyllablePatternWithChars`,
first version of `src/main.go`) -/

/-- `SyllableCond` from `src/main.go`; the Go field has type `int`, so the
length is an `Int` here. -/
structure SyllableCond where
  Length : Int
deriving DecidableEq

/-- Decimal value of a digit-only, non-empty character list; `none`
otherwise. -/
def digitsVal (ds : List Char) : Option Nat :=
  if ds = [] then none
  else if ds.all (fun c => c.isDigit) then
    some (ds.foldl (fun n c => 10 * n + (c.toNat - 48)) 0)
  else none

/-- Model of Go `strconv.Atoi`: optional sign, decimal digits, error outside
the 64-bit signed range (Go's `ParseInt` with `bitSize 0` on a 64-bit
platform). An error is modelled as `none`. -/
def goAtoi (s : List Char) : Option Int :=
  let signed : Bool × List Char :=
    match s with
    | '+' :: rest => (false, rest)
    | '-' :: rest => (true, rest)
    | _ => (false, s)
  match digitsVal signed.2 with
  | none => none
  | some n =>
    let v : Int := if signed.1 then -(n : Int) else (n : Int)
    if -(2 ^ 63) ≤ v ∧ v ≤ 2 ^ 63 - 1 then some v else none

/-- `parsePattern(query)` from `src/main.go`: split the query on `-`; each
part accepted by `Atoi` appends a length constraint, every other part's
characters are appended to the must-contain string. The fold mirrors the Go
loop's two append statements. -/
def parsePattern (query : List Char) : List SyllableCond × List Char :=
  (splitOn '-' query).foldl
    (fun acc p =>
      match goAtoi p with
      | some n => (acc.1 ++ [⟨n⟩], acc.2)
      | none => (acc.1, acc.2 ++ p))
    ([], [])

/-- The per-syllable length check loop of `matchSyllablePatternWithChars`
(parts and conditions zipped; the list lengths are equal at the call site). -/
def sylLensOK : List (List Char × SyllableCond) → Bool
  | [] => true
  | (part, cond) :: rest =>
    if (part.length : Int) = cond.Length then sylLensOK rest else false

/-- `matchSyllablePatternWithChars(word, conds, mustChars)` from
`src/main.go`: split the word into fields, compare the field count with the
constraint count, check each field's rune count against its constraint, then
require every must-contain character to occur somewhere in the whole
(un-split) word. -/
def matchSyllablePatternWithChars
    (word : List Char) (conds : List SyllableCond) (mustChars : List Char) : Bool :=
  let parts := fields word
  if parts.length = conds.length then
    if sylLensOK (parts.zip conds) then
      mustChars.all (fun ch => word.contains ch)
    else false
  else false



/-! ### The normalizer (`removeDiacritics`)

`removeDiacritics` calls `norm.NFD.String` and `unicode.Is(unicode.Mn, r)`.
They are modelled by a per-character canonical decomposition table covering
the Vietnamese precomposed letters (the repertoire this program normalizes),
with every other character decomposing to itself, and by the Combining
Diacritical Marks block for the `Mn` test. -/

/-- Canonical (NFD) decompositions of the Vietnamese precomposed letters:
base letter first, then the combining marks in canonical order (ascending
combining class; U+031B horn = 216, U+0323 dot below = 220, the tone and
shape marks U+0300/0301/0302/0303/0306/0309 = 230). -/
def decompTable : List (Char × List Char) := [
  ('à', ['a', '̀']),
  ('á', ['a', '́']),
  ('ả', ['a', '̉']),
  ('ã', ['a', '̃']),
  ('ạ', ['a', '̣']),
  ('ă', ['a', '̆']),
  ('ằ', ['a', '̆', '̀']),
  ('ắ', ['a', '̆', '́']),
  ('ẳ', ['a', '̆', '̉']),
  ('ẵ', ['a', '̆', '̃']),
  ('ặ', ['a', '̣', '̆']),
  ('â', ['a', '̂']),
  ('ầ', ['a', '̂', '̀']),
  ('ấ', ['a', '̂', '́']),
  ('ẩ', ['a', '̂', '̉']),
  ('ẫ', ['a', '̂', '̃']),
  ('ậ', ['a', '̣', '̂']),
  ('è', ['e', '̀']),
  ('é', ['e', '́']),
  ('ẻ', ['e', '̉']),
  ('ẽ', ['e', '̃']),
  ('ẹ', ['e', '̣']),
  ('ê', ['e', '̂']),
  ('ề', ['e', '̂', '̀']),
  ('ế', ['e', '̂', '́']),
  ('ể', ['e', '̂', '̉']),
  ('ễ', ['e', '̂', '̃']),
  ('ệ', ['e', '̣', '̂']),
  ('ì', ['i', '̀']),
  ('í', ['i', '́']),
  ('ỉ', ['i', '̉']),
  ('ĩ', ['i', '̃']),
  ('ị', ['i', '̣']),
  ('ò', ['o', '̀']),
  ('ó', ['o', '́']),
  ('ỏ', ['o', '̉']),
  ('õ', ['o', '̃']),
  ('ọ', ['o', '̣']),
  ('ô', ['o', '̂']),
  ('ồ', ['o', '̂', '̀']),
  ('ố', ['o', '̂', '́']),
  ('ổ', ['o', '̂', '̉']),
  ('ỗ', ['o', '̂', '̃']),
  ('ộ', ['o', '̣', '̂']),
  ('ơ', ['o', '̛']),
  ('ờ', ['o', '̛', '̀']),
  ('ớ', ['o', '̛', '́']),
  ('ở', ['o', '̛', '̉']),
  ('ỡ', ['o', '̛', '̃']),
  ('ợ', ['o', '̛', '̣']),
  ('ù', ['u', '̀']),
  ('ú', ['u', '́']),
  ('ủ', ['u', '̉']),
  ('ũ', ['u', '̃']),
  ('ụ', ['u', '̣']),
  ('ư', ['u', '̛']),
  ('ừ', ['u', '̛', '̀']),
  ('ứ', ['u', '̛', '́']),
  ('ử', ['u', '̛', '̉']),
  ('ữ', ['u', '̛', '̃']),
  ('ự', ['u', '̛', '̣']),
  ('ỳ', ['y', '̀']),
  ('ý', ['y', '́']),
  ('ỷ', ['y', '̉']),
  ('ỹ', ['y', '̃']),
  ('ỵ', ['y', '̣']),
  ('À', ['A', '̀']),
  ('Á', ['A', '́']),
  ('Ả', ['A', '̉']),
  ('Ã', ['A', '̃']),
  ('Ạ', ['A', '̣']),
  ('Ă', ['A', '̆']),
  ('Ằ', ['A', '̆', '̀']),
  ('Ắ', ['A', '̆', '́']),
  ('Ẳ', ['A', '̆', '̉']),
  ('Ẵ', ['A', '̆', '̃']),
  ('Ặ', ['A', '̣', '̆']),
  ('Â', ['A', '̂']),
  ('Ầ', ['A', '̂', '̀']),
  ('Ấ', ['A', '̂', '́']),
  ('Ẩ', ['A', '̂', '̉']),
  ('Ẫ', ['A', '̂', '̃']),
  ('Ậ', ['A', '̣', '̂']),
  ('È', ['E', '̀']),
  ('É', ['E', '́']),
  ('Ẻ', ['E', '̉']),
  ('Ẽ', ['E', '̃']),
  ('Ẹ', ['E', '̣']),
  ('Ê', ['E', '̂']),
  ('Ề', ['E', '̂', '̀']),
  ('Ế', ['E', '̂', '́']),
  ('Ể', ['E', '̂', '̉']),
  ('Ễ', ['E', '̂', '̃']),
  ('Ệ', ['E', '̣', '̂']),
  ('Ì', ['I', '̀']),
  ('Í', ['I', '́']),
  ('Ỉ', ['I', '̉']),
  ('Ĩ', ['I', '̃']),
  ('Ị', ['I', '̣']),
  ('Ò', ['O', '̀']),
  ('Ó', ['O', '́']),
  ('Ỏ', ['O', '̉']),
  ('Õ', ['O', '̃']),
  ('Ọ', ['O', '̣']),
  ('Ô', ['O', '̂']),
  ('Ồ', ['O', '̂', '̀']),
  ('Ố', ['O', '̂', '́']),
  ('Ổ', ['O', '̂', '̉']),
  ('Ỗ', ['O', '̂', '̃']),
  ('Ộ', ['O', '̣', '̂']),
  ('Ơ', ['O', '̛']),
  ('Ờ', ['O', '̛', '̀']),
  ('Ớ', ['O', '̛', '́']),
  ('Ở', ['O', '̛', '̉']),
  ('Ỡ', ['O', '̛', '̃']),
  ('Ợ', ['O', '̛', '̣']),
  ('Ù', ['U', '̀']),
  ('Ú', ['U', '́']),
  ('Ủ', ['U', '̉']),
  ('Ũ', ['U', '̃']),
  ('Ụ', ['U', '̣']),
  ('Ư', ['U', '̛']),
  ('Ừ', ['U', '̛', '̀']),
  ('Ứ', ['U', '̛', '́']),
  ('Ử', ['U', '̛', '̉']),
  ('Ữ', ['U', '̛', '̃']),
  ('Ự', ['U', '̛', '̣']),
  ('Ỳ', ['Y', '̀']),
  ('Ý', ['Y', '́']),
  ('Ỷ', ['Y', '̉']),
  ('Ỹ', ['Y', '̃']),
  ('Ỵ', ['Y', '̣'])]

/-- Canonical decomposition of one character (model of `norm.NFD` applied
pointwise; a character outside the table decomposes to itself). -/
def nfdD (c : Char) : List Char :=
  match decompTable.lookup c with
  | some l => l
  | none => [c]

/-- Model of `unicode.Is(unicode.Mn, r)`: the Combining Diacritical Marks
block U+0300 – U+036F, which contains every mark produced by the
decompositions above. -/
def isMn (c : Char) : Bool := 0x300 ≤ c.toNat && c.toNat ≤ 0x36F

/-- The `switch` in `removeDiacritics`: `đ` and `Đ` are rewritten to `d` and
`D`, every other rune is written back unchanged. -/
def mapD (c : Char) : Char :=
  if c = 'đ' then 'd' else if c = 'Đ' then 'D' else c

/-- `removeDiacritics(str)` from `src/main.go`: NFD-decompose, skip the
non-spacing marks, substitute `đ`/`Đ`. -/
def removeDiacritics (s : List Char) : List Char :=
  ((s.flatMap nfdD).filter (fun r => !(isMn r))).map mapD


/-! ### The lookup driver (`ui`, second version of `src/main.go`) -/

/-- Model of Go `strings.ToLower` restricted to the unaccented Latin letters
(the alphabet remaining after `removeDiacritics`; other characters pass
through). -/
def goToLowerChar (c : Char) : Char :=
  if 'A' ≤ c && c ≤ 'Z' then Char.ofNat (c.toNat + 32) else c

/-- `strings.ToLower` over a whole string. -/
def goToLower (s : List Char) : List Char := s.map goToLowerChar

/-- The query-classification loop of `ui`: split the normalized query on
single spaces; a part starting with `-` extends the excluded characters, a
part starting with `+` extends the required characters, any other part is
appended to the pattern with a single space between pattern parts. The
result is (pattern, required, excluded). -/
def parseWildcardQuery (queryNorm : List Char) : List Char × List Char × List Char :=
  (splitOn ' ' queryNorm).foldl
    (fun acc part =>
      match part with
      | '-' :: rest => (acc.1, acc.2.1, acc.2.2 ++ rest)
      | '+' :: rest => (acc.1, acc.2.1 ++ rest, acc.2.2)
      | _ => (if acc.1 = [] then part else acc.1 ++ ' ' :: part, acc.2.1, acc.2.2))
    ([], [], [])

/-- The dictionary loop of `ui`: for each word, build the comparison form
(spaces collapsed, diacritics removed, lower-cased) and print the original
word when `matchWildcard` accepts it. The dictionary is modelled as the list
of its words in iteration order; the printed words are returned in order. -/
def uiLoop (qp req exc : List Char) : List (List Char) → List (List Char)
  | [] => []
  | word :: rest =>
    let wordNorm := goToLower (removeDiacritics (normalizeSpaces word))
    if matchWildcard qp wordNorm req exc then word :: uiLoop qp req exc rest
    else uiLoop qp req exc rest

/-- The default branch of `ui(dict)` from `src/main.go`: normalize and
lower-case the query, classify its parts, scan the dictionary. -/
def ui (dict : List (List Char)) (query : List Char) : List (List Char) :=
  let queryNorm := goToLower (removeDiacritics query)
  let q := parseWildcardQuery queryNorm
  uiLoop q.1 q.2.1 q.2.2 dict

/-! ### Instrumented (panic-checked) matchers

`matchWildcard` indexes `tw[j]` and `matchSyllablePatternWithChars` indexes
`conds[i]`; a Go out-of-range index panics. The evaluators below mirror the
index-based loops literally, using `List.get?`, and return `none` exactly
when some index access would be out of range, so that totality of match
evaluation is a theorem rather than an artifact of the embedding. -/

/-- Index-based per-cell loop over one syllable pair: `js` is the list of
cell indices still to visit; any out-of-range access yields `none`
(a panic), `some none` is `return false`, `some (some ws)` carries the
wildcard-captured characters. -/
def cellsChecked (pw tw : List Char) : List Nat → Option (Option (List Char))
  | [] => some (some [])
  | j :: js =>
    match pw.get? j, tw.get? j with
    | some p, some t =>
      if p = '*' then (cellsChecked pw tw js).map (Option.map (fun ws => t :: ws))
      else if p = t then cellsChecked pw tw js
      else some none
    | _, _ => none

/-- Index-based syllable loop of `matchWildcard`: `is` is the list of
syllable indices still to visit. -/
def sylsChecked (pws tws : List (List Char)) : List Nat → Option (Option (List Char))
  | [] => some (some [])
  | i :: is =>
    match pws.get? i, tws.get? i with
    | some pw, some tw =>
      if pw.length = tw.length then
        match cellsChecked pw tw (List.range pw.length) with
        | none => none
        | some none => some none
        | some (some w) => (sylsChecked pws tws is).map (Option.map (fun ws => w ++ ws))
      else some none
    | _, _ => none

/-- `matchWildcard` with every rune indexing checked: `none` models a
panic. -/
def matchWildcardChecked (pattern text required excluded : List Char) : Option Bool :=
  let pattern2 := normalizeSpaces pattern
  let pWords := splitOn ' ' pattern2
  let tWords := splitOn ' ' text
  if pWords.length = tWords.length then
    match sylsChecked pWords tWords (List.range pWords.length) with
    | none => none
    | some none => some false
    | some (some wild) =>
      some (required.all (fun ch => wild.contains ch) &&
            excluded.all (fun ch => !(wild.contains ch)))
  else some false

/-- Index-based syllable-length loop of `matchSyllablePatternWithChars`:
`conds[i]` is a checked access. -/
def legacyLensChecked (parts : List (List Char)) (conds : List SyllableCond) :
    List Nat → Option Bool
  | [] => some true
  | i :: is =>
    match parts.get? i, conds.get? i with
    | some part, some cond =>
      if (part.length : Int) = cond.Length then legacyLensChecked parts conds is
      else some false
    | _, _ => none

/-- `matchSyllablePatternWithChars` with every indexing checked: `none`
models a panic. -/
def matchSyllableChecked
    (word : List Char) (conds : List SyllableCond) (mustChars : List Char) : Option Bool :=
  let parts := fields word
  if parts.length = conds.length then
    match legacyLensChecked parts conds (List.range parts.length) with
    | none => none
    | some false => some false
    | some true => some (mustChars.all (fun ch => word.contains ch))
  else some false

/-! ### Helper lemmas -/

/-- The fold inside `parsePattern`, characterized: numeric parts append
constraints in order, all other parts concatenate into the must-contain
string. -/
theorem parsePattern_foldl (parts : List (List Char)) (acc : List SyllableCond × List Char) :
    parts.foldl
      (fun acc p =>
        match goAtoi p with
        | some n => (acc.1 ++ [⟨n⟩], acc.2)
        | none => (acc.1, acc.2 ++ p))
      acc
    = (acc.1 ++ parts.filterMap (fun p => (goAtoi p).map SyllableCond.mk),
       acc.2 ++ (parts.filter (fun p => (goAtoi p).isNone)).flatten) := by
  induction parts generalizing acc with
  | nil => simp
  | cons p ps ih =>
    cases h : goAtoi p with
    | none => simp [List.foldl_cons, h, ih, List.filterMap_cons, List.filter_cons]
    | some n => simp [List.foldl_cons, h, ih, List.filterMap_cons, List.filter_cons]

/-- `sylLensOK` succeeds exactly when every zipped (part, constraint) pair
has matching length. -/
theorem sylLensOK_eq_true_iff (l : List (List Char × SyllableCond)) :
    sylLensOK l = true ↔ ∀ pr ∈ l, (pr.1.length : Int) = pr.2.Length := by
  induction l with
  | nil => simp [sylLensOK]
  | cons pc rest ih =>
    obtain ⟨part, cond⟩ := pc
    constructor
    · intro h pr hpr
      by_cases hc : (part.length : Int) = cond.Length
      · rcases List.mem_cons.mp hpr with rfl | hpr2
        · exact hc
        · have h2 : sylLensOK rest = true := by simpa [sylLensOK, hc] using h
          exact ih.mp h2 pr hpr2
      · exfalso
        simp [sylLensOK, hc] at h
    · intro h
      have hc := h (part, cond) (List.mem_cons_self _ _)
      have hrest : sylLensOK rest = true :=
        ih.mpr (fun pr hpr => h pr (List.mem_cons_of_mem _ hpr))
      simpa [sylLensOK, hc] using hrest

/-- `fields` returns the empty list exactly on all-whitespace input. -/
theorem fieldsAux_eq_nil (s : List Char) :
    ∀ acc, fieldsAux s acc = [] → acc = [] ∧ ∀ c ∈ s, goIsSpace c = true := by
  induction s with
  | nil =>
    intro acc h
    by_cases hacc : acc = [] <;> simp_all [fieldsAux]
  | cons c rest ih =>
    intro acc h
    simp only [fieldsAux] at h
    by_cases hsp : goIsSpace c
    · rw [if_pos hsp] at h
      by_cases hacc : acc = []
      · rw [if_pos hacc] at h
        rcases ih [] h with ⟨-, hall⟩
        refine ⟨hacc, ?_⟩
        intro x hx
        rcases List.mem_cons.mp hx with rfl | hx
        · exact hsp
        · exact hall x hx
      · rw [if_neg hacc] at h
        exact absurd h (by simp)
    · rw [if_neg hsp] at h
      have h2 := (ih (c :: acc) h).1
      exact absurd h2 (by simp)

/-- A word all of whose characters are white space has no fields. -/
theorem fields_eq_nil_all_space (word : List Char) (h : fields word = []) :
    ∀ c ∈ word, goIsSpace c = true :=
  (fieldsAux_eq_nil word [] h).2

/-- With an empty constraint list, a successful legacy match forces the word
to split into zero fields. -/
theorem legacy_match_nil_conds (word mustChars : List Char)
    (h : matchSyllablePatternWithChars word [] mustChars = true) : fields word = [] := by
  simp only [matchSyllablePatternWithChars] at h
  by_cases hlen : (fields word).length = ([] : List SyllableCond).length
  · exact List.length_eq_zero.mp (by simpa using hlen)
  · rw [if_neg hlen] at h
    exact absurd h (by simp)

/-- The dictionary loop of `ui` is a filter by `matchWildcard` over the
comparison form of each word. -/
theorem uiLoop_eq_filter (qp req exc : List Char) (dict : List (List Char)) :
    uiLoop qp req exc dict =
      dict.filter
        (fun w => matchWildcard qp (goToLower (removeDiacritics (normalizeSpaces w))) req exc) := by
  induction dict with
  | nil => rfl
  | cons w rest ih =>
    simp only [uiLoop, List.filter_cons]
    by_cases h : matchWildcard qp (goToLower (removeDiacritics (normalizeSpaces w))) req exc = true
    · simp [h, ih]
    · simp [h, ih]

/-- Closed form of `parsePattern`. -/
theorem parsePattern_eq (q : List Char) :
    parsePattern q =
      ((splitOn '-' q).filterMap (fun p => (goAtoi p).map SyllableCond.mk),
       ((splitOn '-' q).filter (fun p => (goAtoi p).isNone)).flatten) := by
  simp only [parsePattern]
  simpa using parsePattern_foldl (splitOn '-' q) ([], [])

/-- `matchWildcard` factored through its positional phase. -/
theorem matchWildcard_eq_capture (p t r e : List Char) :
    matchWildcard p t r e =
      match positionalCapture p t with
      | none => false
      | some wild =>
        r.all (fun ch => wild.contains ch) && e.all (fun ch => !(wild.contains ch)) := by
  by_cases h : (splitOn ' ' (normalizeSpaces p)).length = (splitOn ' ' t).length
  · simp only [matchWildcard, positionalCapture, if_pos h]
  · simp only [matchWildcard, positionalCapture, if_neg h]

/-- Index lookup into a zip from index lookups into the two lists. -/
theorem get?_zip_of_get? {α β : Type} :
    ∀ (l1 : List α) (l2 : List β) (i : Nat) (a : α) (b : β),
      l1.get? i = some a → l2.get? i = some b → (l1.zip l2).get? i = some (a, b) := by
  intro l1
  induction l1 with
  | nil => intro l2 i a b h1 _; simp at h1
  | cons x xs ih =>
    intro l2 i a b h1 h2
    cases l2 with
    | nil => simp at h2
    | cons y ys =>
      cases i with
      | zero => simp_all [List.zip_cons_cons]
      | succ n =>
        simpa [List.zip_cons_cons] using ih ys n a b (by simpa using h1) (by simpa using h2)

/-- A successful per-cell loop forces every literal cell to equal the word
character at the same position. -/
theorem collectCells_literal :
    ∀ (l : List (Char × Char)) (w : List Char), collectCells l = some w →
      ∀ pr ∈ l, pr.1 ≠ '*' → pr.1 = pr.2 := by
  intro l
  induction l with
  | nil => intro w _ pr hpr; simp at hpr
  | cons pt rest ih =>
    intro w h pr hpr hne
    obtain ⟨p, t⟩ := pt
    simp only [collectCells] at h
    rcases List.mem_cons.mp hpr with rfl | hpr2
    · rw [if_neg hne] at h
      by_cases hpt : p = t
      · exact hpt
      · rw [if_neg hpt] at h
        exact absurd h (by simp)
    · by_cases hps : p = '*'
      · rw [if_pos hps] at h
        rcases Option.map_eq_some'.mp h with ⟨w2, hw2, -⟩
        exact ih w2 hw2 pr hpr2 hne
      · rw [if_neg hps] at h
        by_cases hpt : p = t
        · rw [if_pos hpt] at h
          exact ih w h pr hpr2 hne
        · rw [if_neg hpt] at h
          exact absurd h (by simp)

/-- A successful syllable guard forces equal rune counts. -/
theorem matchSyl_some_len {pw tw w : List Char} (h : matchSyl pw tw = some w) :
    pw.length = tw.length := by
  by_cases hl : pw.length = tw.length
  · exact hl
  · simp [matchSyl, hl] at h

/-- A successful syllable loop succeeds on every syllable pair in it. -/
theorem matchAllSyl_mem :
    ∀ (l : List (List Char × List Char)) (ws : List Char), matchAllSyl l = some ws →
      ∀ pr ∈ l, ∃ w, matchSyl pr.1 pr.2 = some w := by
  intro l
  induction l with
  | nil => intro ws _ pr hpr; simp at hpr
  | cons q rest ih =>
    intro ws h pr hpr
    obtain ⟨pw, tw⟩ := q
    simp only [matchAllSyl] at h
    rcases List.mem_cons.mp hpr with rfl | hpr2
    · cases hq : matchSyl pw tw with
      | none => rw [hq] at h; exact absurd h (by simp)
      | some w => exact ⟨w, hq ▸ rfl⟩
    · cases hq : matchSyl pw tw with
      | none => rw [hq] at h; exact absurd h (by simp)
      | some w =>
        rw [hq] at h
        simp only [] at h
        rcases Option.map_eq_some'.mp h with ⟨ws2, hws2, -⟩
        exact ih ws2 hws2 pr hpr2

/-- A successful association-list lookup is a membership. -/
theorem lookupTable_mem :
    ∀ (tbl : List (Char × List Char)) (a : Char) (b : List Char),
      tbl.lookup a = some b → (a, b) ∈ tbl := by
  intro tbl
  induction tbl with
  | nil => intro a b h; simp [List.lookup] at h
  | cons kv rest ih =>
    intro a b h
    obtain ⟨k, v⟩ := kv
    simp only [List.lookup] at h
    cases hk : (a == k)
    · rw [hk] at h
      exact List.mem_cons_of_mem _ (ih a b h)
    · rw [hk] at h
      have hv : v = b := by injection h
      have ha : a = k := eq_of_beq hk
      subst hv; subst ha
      exact List.mem_cons_self _ _

set_option maxRecDepth 8192 in
/-- Every character of every table decomposition is either a combining mark
or, after the `đ`/`Đ` substitution, a character that the whole normalizer
pipeline leaves alone. -/
theorem decompTable_sound :
    ∀ p ∈ decompTable, ∀ d ∈ p.2,
      isMn d = true ∨
        (nfdD (mapD d) = [mapD d] ∧ isMn (mapD d) = false ∧ mapD (mapD d) = mapD d) := by
  decide

/-- Characters surviving the mark filter are stable under the whole
pipeline once substituted. -/
theorem stable_of_out (c d : Char) (hd : d ∈ nfdD c) (hmn : isMn d = false) :
    nfdD (mapD d) = [mapD d] ∧ isMn (mapD d) = false ∧ mapD (mapD d) = mapD d := by
  cases hlk : decompTable.lookup c with
  | none =>
    have hc : nfdD c = [c] := by simp [nfdD, hlk]
    rw [hc] at hd
    have hdc : d = c := by simpa using hd
    subst hdc
    by_cases h1 : d = 'đ'
    · subst h1; decide
    · by_cases h2 : d = 'Đ'
      · subst h2; decide
      · have hm : mapD d = d := by simp [mapD, h1, h2]
        rw [hm]
        exact ⟨hc, hmn, hm⟩
  | some l =>
    have hc : nfdD c = l := by simp [nfdD, hlk]
    rw [hc] at hd
    have hmem := lookupTable_mem decompTable c l hlk
    rcases decompTable_sound (c, l) hmem d hd with h | h
    · rw [hmn] at h
      exact absurd h (by simp)
    · exact h

/-- Every character of a normalized string is left alone by the pipeline. -/
theorem removeDiacritics_all_stable (s : List Char) :
    ∀ x ∈ removeDiacritics s, nfdD x = [x] ∧ isMn x = false ∧ mapD x = x := by
  intro x hx
  simp only [removeDiacritics, List.mem_map, List.mem_filter, List.mem_flatMap] at hx
  rcases hx with ⟨d, ⟨⟨c, _, hd⟩, hdm⟩, rfl⟩
  exact stable_of_out c d hd (by simpa using hdm)

/-- The pipeline fixes any string all of whose characters it leaves
alone. -/
theorem removeDiacritics_fixed :
    ∀ l : List Char, (∀ x ∈ l, nfdD x = [x] ∧ isMn x = false ∧ mapD x = x) →
      removeDiacritics l = l := by
  intro l
  induction l with
  | nil => intro _; rfl
  | cons c rest ih =>
    intro h
    rcases h c (List.mem_cons_self _ _) with ⟨h1, h2, h3⟩
    have ihr := ih (fun x hx => h x (List.mem_cons_of_mem _ hx))
    simp only [removeDiacritics] at ihr ⊢
    rw [List.flatMap_cons, h1]
    simp [h2, h3, ihr]

/-- Shifting every index by one steps both lists of the cell loop. -/
theorem cellsChecked_shift :
    ∀ (js : List Nat) (p : Char) (ps : List Char) (t : Char) (ts : List Char),
      cellsChecked (p :: ps) (t :: ts) (js.map Nat.succ) = cellsChecked ps ts js := by
  intro js
  induction js with
  | nil => intro p ps t ts; rfl
  | cons j js ih =>
    intro p ps t ts
    cases hp : ps[j]? with
    | none => simp [cellsChecked, List.get?_cons_succ, hp]
    | some pc =>
      cases ht : ts[j]? with
      | none => simp [cellsChecked, List.get?_cons_succ, hp, ht]
      | some tc =>
        by_cases hstar : pc = '*'
        · simp [cellsChecked, List.get?_cons_succ, hp, ht, hstar, ih]
        · by_cases hpt : pc = tc
          · simp [cellsChecked, List.get?_cons_succ, hp, ht, hstar, hpt, ih]
          · simp [cellsChecked, List.get?_cons_succ, hp, ht, hstar, hpt]

/-- On equal-length syllables, the index-based cell loop never goes out of
range and agrees with the structural cell loop. -/
theorem cellsChecked_range :
    ∀ (pw tw : List Char), pw.length = tw.length →
      cellsChecked pw tw (List.range pw.length) = some (collectCells (pw.zip tw)) := by
  intro pw
  induction pw with
  | nil => intro tw h; rfl
  | cons p ps ih =>
    intro tw h
    cases tw with
    | nil => simp at h
    | cons t ts =>
      have hlen : ps.length = ts.length := by simpa using h
      by_cases hstar : p = '*'
      · simp [cellsChecked, List.range_succ_eq_map, cellsChecked_shift, ih ts hlen,
              collectCells, List.zip_cons_cons, List.zip, hstar]
      · by_cases hpt : p = t
        · subst hpt
          simp [cellsChecked, List.range_succ_eq_map, cellsChecked_shift, ih ts hlen,
                collectCells, List.zip_cons_cons, List.zip, hstar]
        · simp [cellsChecked, List.range_succ_eq_map, collectCells, List.zip_cons_cons,
                List.zip, hstar, hpt]

/-- Shifting every index by one steps both lists of the syllable loop. -/
theorem sylsChecked_shift :
    ∀ (is : List Nat) (pw : List Char) (pws : List (List Char))
      (tw : List Char) (tws : List (List Char)),
      sylsChecked (pw :: pws) (tw :: tws) (is.map Nat.succ) = sylsChecked pws tws is := by
  intro is
  induction is with
  | nil => intro pw pws tw tws; rfl
  | cons i is ih =>
    intro pw pws tw tws
    cases hp : pws[i]? with
    | none => simp [sylsChecked, List.get?_cons_succ, hp]
    | some pw2 =>
      cases ht : tws[i]? with
      | none => simp [sylsChecked, List.get?_cons_succ, hp, ht]
      | some tw2 =>
        by_cases hlen : pw2.length = tw2.length
        · cases hc : cellsChecked pw2 tw2 (List.range tw2.length) with
          | none => simp [sylsChecked, List.get?_cons_succ, hp, ht, hlen, hc]
          | some o =>
            cases o with
            | none => simp [sylsChecked, List.get?_cons_succ, hp, ht, hlen, hc]
            | some w => simp [sylsChecked, List.get?_cons_succ, hp, ht, hlen, hc, ih]
        · simp [sylsChecked, List.get?_cons_succ, hp, ht, hlen]

/-- On equal-length syllable lists, the index-based syllable loop never goes
out of range and agrees with the structural syllable loop. -/
theorem sylsChecked_range :
    ∀ (pws tws : List (List Char)), pws.length = tws.length →
      sylsChecked pws tws (List.range pws.length) = some (matchAllSyl (pws.zip tws)) := by
  intro pws
  induction pws with
  | nil => intro tws h; rfl
  | cons pw pws ih =>
    intro tws h
    cases tws with
    | nil => simp at h
    | cons tw tws =>
      have hlen : pws.length = tws.length := by simpa using h
      by_cases hl : pw.length = tw.length
      · have hcr := cellsChecked_range pw tw hl
        rw [hl] at hcr
        cases hc : collectCells (pw.zip tw) with
        | none =>
          rw [hc] at hcr
          simp only [List.zip] at hc
          simp [sylsChecked, List.range_succ_eq_map, hl, hcr, matchAllSyl, matchSyl, hc,
                List.zip_cons_cons, List.zip]
        | some w =>
          rw [hc] at hcr
          simp only [List.zip] at hc
          simp [sylsChecked, List.range_succ_eq_map, hl, hcr, sylsChecked_shift,
                ih tws hlen, matchAllSyl, matchSyl, hc, List.zip_cons_cons, List.zip]
      · simp [sylsChecked, List.range_succ_eq_map, hl, matchAllSyl, matchSyl,
              List.zip_cons_cons, List.zip]

/-- The instrumented wildcard matcher never panics and computes the same
boolean as the plain embedding. -/
theorem matchWildcardChecked_eq (p t r e : List Char) :
    matchWildcardChecked p t r e = some (matchWildcard p t r e) := by
  simp only [matchWildcardChecked, matchWildcard]
  by_cases hl : (splitOn ' ' (normalizeSpaces p)).length = (splitOn ' ' t).length
  · rw [if_pos hl, if_pos hl, sylsChecked_range _ _ hl]
    cases hms : matchAllSyl ((splitOn ' ' (normalizeSpaces p)).zip (splitOn ' ' t)) with
    | none => rfl
    | some wild => rfl
  · rw [if_neg hl, if_neg hl]

/-- Shifting every index by one steps both lists of the legacy length
loop. -/
theorem legacyLensChecked_shift :
    ∀ (is : List Nat) (part : List Char) (parts : List (List Char))
      (cond : SyllableCond) (conds : List SyllableCond),
      legacyLensChecked (part :: parts) (cond :: conds) (is.map Nat.succ) =
        legacyLensChecked parts conds is := by
  intro is
  induction is with
  | nil => intro part parts cond conds; rfl
  | cons i is ih =>
    intro part parts cond conds
    cases hp : parts[i]? with
    | none => simp [legacyLensChecked, List.get?_cons_succ, hp]
    | some part2 =>
      cases hc : conds[i]? with
      | none => simp [legacyLensChecked, List.get?_cons_succ, hp, hc]
      | some cond2 =>
        by_cases hL : (part2.length : Int) = cond2.Length
        · simp [legacyLensChecked, List.get?_cons_succ, hp, hc, hL, ih]
        · simp [legacyLensChecked, List.get?_cons_succ, hp, hc, hL]

/-- On equal-length lists, the index-based legacy length loop never goes out
of range and agrees with the structural loop. -/
theorem legacyLensChecked_range :
    ∀ (parts : List (List Char)) (conds : List SyllableCond), parts.length = conds.length →
      legacyLensChecked parts conds (List.range parts.length) =
        some (sylLensOK (parts.zip conds)) := by
  intro parts
  induction parts with
  | nil => intro conds h; rfl
  | cons part parts ih =>
    intro conds h
    cases conds with
    | nil => simp at h
    | cons cond conds =>
      have hlen : parts.length = conds.length := by simpa using h
      by_cases hL : (part.length : Int) = cond.Length
      · simp [legacyLensChecked, List.range_succ_eq_map, hL, legacyLensChecked_shift,
              ih conds hlen, sylLensOK, List.zip_cons_cons, List.zip]
      · simp [legacyLensChecked, List.range_succ_eq_map, hL, sylLensOK,
              List.zip_cons_cons, List.zip]

/-- The instrumented legacy matcher never panics and computes the same
boolean as the plain embedding. -/
theorem matchSyllableChecked_eq
    (word : List Char) (conds : List SyllableCond) (mustChars : List Char) :
    matchSyllableChecked word conds mustChars =
      some (matchSyllablePatternWithChars word conds mustChars) := by
  simp only [matchSyllableChecked, matchSyllablePatternWithChars]
  by_cases hl : (fields word).length = conds.length
  · rw [if_pos hl, if_pos hl, legacyLensChecked_range _ _ hl]
    cases hs : sylLensOK ((fields word).zip conds) with
    | false => rfl
    | true => rfl
  · rw [if_neg hl, if_neg hl]

/-! ### The claims -/

/-- Claim C1: whenever the wildcard template matches the word positionally
(capturing `wild` at the wildcard cells), the overall match succeeds exactly
when every required character occurs in `wild` and no excluded character
does — characters at literal positions are never consulted; moreover
`matchWildcard "viet ***" "viet hoa" "" "oh"` and
`matchWildcard "viet ***" "viet ngu" "a" ""` are both false. -/
theorem claim_C1 :
    (∀ p t r e wild, positionalCapture p t = some wild →
      (matchWildcard p t r e = true ↔ (∀ c ∈ r, c ∈ wild) ∧ (∀ c ∈ e, c ∉ wild)))
    ∧ matchWildcard (strL "viet ***") (strL "viet hoa") (strL "") (strL "oh") = false
    ∧ matchWildcard (strL "viet ***") (strL "viet ngu") (strL "a") (strL "") = false := by
  refine ⟨?_, by decide, by decide⟩
  intro p t r e wild h
  rw [matchWildcard_eq_capture, h]
  simp [List.all_eq_true]

/-- Witness for C1 at `"viet ***"` / `"viet hoa"`, whose wildcard cells
capture `"hoa"`. -/
theorem claim_C1_witness :
    positionalCapture (strL "viet ***") (strL "viet hoa") = some (strL "hoa")
    ∧ (matchWildcard (strL "viet ***") (strL "viet hoa") (strL "") (strL "oh") = true ↔
        (∀ c ∈ strL "", c ∈ strL "hoa") ∧ ∀ c ∈ strL "oh", c ∉ strL "hoa") :=
  ⟨by decide,
   claim_C1.1 (strL "viet ***") (strL "viet hoa") (strL "") (strL "oh") (strL "hoa")
     (by decide)⟩

/-- Claim C3: `matchWildcard` is false whenever the syllable counts differ,
or some syllable pair has different rune counts, or some literal template
cell differs from the word character at the same position; and
`matchWildcard "viet ***" "viet nam"` is true while
`matchWildcard "viet ***" "viet"` is false. -/
theorem claim_C3 :
    (∀ p t r e : List Char,
      ((splitOn ' ' (normalizeSpaces p)).length ≠ (splitOn ' ' t).length
        ∨ (∃ i pw tw, (splitOn ' ' (normalizeSpaces p)).get? i = some pw
            ∧ (splitOn ' ' t).get? i = some tw ∧ pw.length ≠ tw.length)
        ∨ (∃ i j pw tw pc tc, (splitOn ' ' (normalizeSpaces p)).get? i = some pw
            ∧ (splitOn ' ' t).get? i = some tw
            ∧ pw.get? j = some pc ∧ tw.get? j = some tc ∧ pc ≠ '*' ∧ pc ≠ tc)) →
      matchWildcard p t r e = false)
    ∧ matchWildcard (strL "viet ***") (strL "viet nam") [] [] = true
    ∧ matchWildcard (strL "viet ***") (strL "viet") [] [] = false := by
  refine ⟨?_, by decide, by decide⟩
  intro p t r e hdisj
  cases hm : matchWildcard p t r e with
  | false => rfl
  | true =>
    exfalso
    revert hm
    simp only [matchWildcard]
    by_cases hl : (splitOn ' ' (normalizeSpaces p)).length = (splitOn ' ' t).length
    · rw [if_pos hl]
      cases hms : matchAllSyl ((splitOn ' ' (normalizeSpaces p)).zip (splitOn ' ' t)) with
      | none =>
        intro hm
        simp at hm
      | some wild =>
        intro _
        rcases hdisj with hd | hd | hd
        · exact hd hl
        · rcases hd with ⟨i, pw, tw, hpw, htw, hlen⟩
          have hmem := List.get?_mem (get?_zip_of_get? _ _ i pw tw hpw htw)
          rcases matchAllSyl_mem _ wild hms (pw, tw) hmem with ⟨w, hw⟩
          exact hlen (matchSyl_some_len hw)
        · rcases hd with ⟨i, j, pw, tw, pc, tc, hpw, htw, hpc, htc, hstar, hne⟩
          have hmem := List.get?_mem (get?_zip_of_get? _ _ i pw tw hpw htw)
          rcases matchAllSyl_mem _ wild hms (pw, tw) hmem with ⟨w, hw⟩
          have hlen2 := matchSyl_some_len hw
          have hcc : collectCells (pw.zip tw) = some w := by
            simpa [matchSyl, hlen2] using hw
          have hmem2 := List.get?_mem (get?_zip_of_get? pw tw j pc tc hpc htc)
          exact hne (collectCells_literal _ w hcc (pc, tc) hmem2 hstar)
    · rw [if_neg hl]
      intro hm
      exact Bool.false_ne_true hm

/-- Witness for C3 at `"viet ***"` / `"viet"` (one syllable versus two). -/
theorem claim_C3_witness :
    ((splitOn ' ' (normalizeSpaces (strL "viet ***"))).length ≠ (splitOn ' ' (strL "viet")).length
      ∨ (∃ i pw tw, (splitOn ' ' (normalizeSpaces (strL "viet ***"))).get? i = some pw
          ∧ (splitOn ' ' (strL "viet")).get? i = some tw ∧ pw.length ≠ tw.length)
      ∨ (∃ i j pw tw pc tc,
          (splitOn ' ' (normalizeSpaces (strL "viet ***"))).get? i = some pw
          ∧ (splitOn ' ' (strL "viet")).get? i = some tw
          ∧ pw.get? j = some pc ∧ tw.get? j = some tc ∧ pc ≠ '*' ∧ pc ≠ tc))
    ∧ matchWildcard (strL "viet ***") (strL "viet") (strL "") (strL "") = false :=
  ⟨Or.inl (by decide),
   claim_C3.1 (strL "viet ***") (strL "viet") (strL "") (strL "") (Or.inl (by decide))⟩

/-- Claim C2: the normalizer is idempotent — stripping diacritics twice
equals stripping them once, for every input string. -/
theorem claim_C2 :
    ∀ s : List Char, removeDiacritics (removeDiacritics s) = removeDiacritics s :=
  fun s => removeDiacritics_fixed _ (removeDiacritics_all_stable s)

/-- Claim C4: in the legacy hyphen dialect, given that the word's field
count equals the constraint count and every field's rune count equals its
constraint, the match succeeds exactly when every must-contain character
occurs somewhere in the un-split word; and `parsePattern "3-4-aug"` yields
constraints `[3, 4]` with must-contain characters `"aug"`. -/
theorem claim_C4 :
    (∀ word conds mustChars,
      (fields word).length = conds.length →
      (∀ pr ∈ (fields word).zip conds, (pr.1.length : Int) = pr.2.Length) →
      (matchSyllablePatternWithChars word conds mustChars = true ↔
        ∀ c ∈ mustChars, c ∈ word))
    ∧ parsePattern (strL "3-4-aug") = ([⟨3⟩, ⟨4⟩], strL "aug") := by
  constructor
  · intro word conds mustChars hlen hsyl
    simp only [matchSyllablePatternWithChars]
    rw [if_pos hlen, if_pos ((sylLensOK_eq_true_iff _).mpr hsyl)]
    simp [List.all_eq_true]
  · decide

/-- Witness for C4 at word `"tom cua"`, constraints `[3, 3]`, must-contain
`"a"`. -/
theorem claim_C4_witness :
    ((fields (strL "tom cua")).length = ([⟨3⟩, ⟨3⟩] : List SyllableCond).length
      ∧ ∀ pr ∈ (fields (strL "tom cua")).zip ([⟨3⟩, ⟨3⟩] : List SyllableCond),
          (pr.1.length : Int) = pr.2.Length)
    ∧ (matchSyllablePatternWithChars (strL "tom cua") [⟨3⟩, ⟨3⟩] (strL "a") = true ↔
        ∀ c ∈ strL "a", c ∈ strL "tom cua") :=
  ⟨⟨by decide, by decide⟩,
   claim_C4.1 (strL "tom cua") [⟨3⟩, ⟨3⟩] (strL "a") (by decide) (by decide)⟩

/-- Claim C5: the legacy parser is total and never rejects: split on `-`,
integer parts become length constraints in order, every other part's
characters are concatenated into the must-contain string;
`parsePattern "3-4-abc"` yields `([3, 4], "abc")`. -/
theorem claim_C5 :
    (∀ q : List Char,
      parsePattern q =
        ((splitOn '-' q).filterMap (fun p => (goAtoi p).map SyllableCond.mk),
         ((splitOn '-' q).filter (fun p => (goAtoi p).isNone)).flatten))
    ∧ parsePattern (strL "3-4-abc") = ([⟨3⟩, ⟨4⟩], strL "abc") := by
  constructor
  · exact parsePattern_eq
  · decide

/-- Claim C6: the lookup driver of `ui` evaluates `matchWildcard` against
each word's comparison form (spaces collapsed, diacritics removed,
lower-cased) and yields exactly the original matching words, in dictionary
iteration order (`List.filter` keeps originals and preserves order). -/
theorem claim_C6 :
    ∀ (dict : List (List Char)) (query : List Char),
      ui dict query =
        dict.filter
          (fun w =>
            matchWildcard (parseWildcardQuery (goToLower (removeDiacritics query))).1
              (goToLower (removeDiacritics (normalizeSpaces w)))
              (parseWildcardQuery (goToLower (removeDiacritics query))).2.1
              (parseWildcardQuery (goToLower (removeDiacritics query))).2.2) := by
  intro dict query
  simp only [ui]
  exact uiLoop_eq_filter _ _ _ dict

/-- Claim C7: `removeDiacritics "Đà Nẵng" = "Da Nang"`; `đ` is substituted
by `d`; and any character that decomposes to itself, is not a combining
mark and is not `đ`/`Đ` passes through unchanged. -/
theorem claim_C7 :
    removeDiacritics (strL "Đà Nẵng") = strL "Da Nang"
    ∧ removeDiacritics (strL "đ") = strL "d"
    ∧ (∀ c : Char, nfdD c = [c] → isMn c = false → c ≠ 'đ' → c ≠ 'Đ' →
        removeDiacritics [c] = [c]) := by
  refine ⟨by decide, by decide, ?_⟩
  intro c h1 h2 h3 h4
  simp [removeDiacritics, h1, h2, mapD, h3, h4]

/-- Witness for C7's pass-through clause at the character `x`. -/
theorem claim_C7_witness :
    (nfdD 'x' = ['x'] ∧ isMn 'x' = false ∧ 'x' ≠ 'đ' ∧ 'x' ≠ 'Đ')
    ∧ removeDiacritics ['x'] = ['x'] :=
  ⟨⟨by decide, by decide, by decide, by decide⟩,
   claim_C7.2.2 'x' (by decide) (by decide) (by decide) (by decide)⟩

/-- Claim C9: a character shared by the required and the excluded set makes
`matchWildcard` reject every pattern and every word. -/
theorem claim_C9 :
    ∀ (pattern text required excluded : List Char) (c : Char),
      c ∈ required → c ∈ excluded →
      matchWildcard pattern text required excluded = false := by
  intro p t r e c hr he
  simp only [matchWildcard]
  split
  · split
    · rfl
    · rename_i wild heq
      by_cases hcw : c ∈ wild
      · have hfa : e.all (fun ch => !(wild.contains ch)) = false := by
          rw [List.all_eq_false]
          refine ⟨c, he, ?_⟩
          simp [hcw]
        rw [hfa, Bool.and_false]
      · have hfa : r.all (fun ch => wild.contains ch) = false := by
          rw [List.all_eq_false]
          refine ⟨c, hr, ?_⟩
          simp [hcw]
        rw [hfa, Bool.false_and]
  · rfl

/-- Claim C8: match evaluation is total — the instrumented evaluators, in
which every rune indexing may signal an out-of-range panic, never panic and
always return the plain matchers' boolean, for all inputs of both
dialects. -/
theorem claim_C8 :
    (∀ pattern text required excluded : List Char,
      matchWildcardChecked pattern text required excluded =
        some (matchWildcard pattern text required excluded))
    ∧ (∀ (word : List Char) (conds : List SyllableCond) (mustChars : List Char),
        matchSyllableChecked word conds mustChars =
          some (matchSyllablePatternWithChars word conds mustChars)) :=
  ⟨matchWildcardChecked_eq, matchSyllableChecked_eq⟩

/-- Witness for C9: `a` both required and excluded rejects a positionally
perfect match. -/
theorem claim_C9_witness :
    ('a' ∈ strL "a" ∧ 'a' ∈ strL "ab")
    ∧ matchWildcard (strL "***") (strL "abc") (strL "a") (strL "ab") = false :=
  ⟨⟨by decide, by decide⟩,
   claim_C9 (strL "***") (strL "abc") (strL "a") (strL "ab") 'a' (by decide) (by decide)⟩

/-- Claim C10: a legacy query with no numeric part parses to an empty
constraint list; with an empty constraint list a word matches only when it
has zero fields, so a word with any non-space character never matches; and
`parsePattern "abc-def" = ([], "abcdef")`. -/
theorem claim_C10 :
    (∀ q : List Char, (∀ p ∈ splitOn '-' q, goAtoi p = none) → (parsePattern q).1 = [])
    ∧ (∀ word mustChars, matchSyllablePatternWithChars word [] mustChars = true →
        fields word = [])
    ∧ (∀ (word mustChars : List Char) (c : Char), c ∈ word → goIsSpace c = false →
        matchSyllablePatternWithChars word [] mustChars = false)
    ∧ parsePattern (strL "abc-def") = ([], strL "abcdef") := by
  refine ⟨?_, ?_, ?_, by decide⟩
  · intro q hall
    rw [parsePattern_eq q]
    rw [List.filterMap_eq_nil_iff]
    intro p hp
    simp [hall p hp]
  · exact legacy_match_nil_conds
  · intro word mustChars c hc hsp
    cases hm : matchSyllablePatternWithChars word [] mustChars with
    | false => rfl
    | true =>
      exfalso
      have hnil := legacy_match_nil_conds word mustChars hm
      have := fields_eq_nil_all_space word hnil c hc
      rw [hsp] at this
      exact Bool.false_ne_true this

/-- Witness for C10: the all-letter query `"abc-def"`, a successful
zero-field match on the empty word, and a rejected one-field word. -/
theorem claim_C10_witness :
    ((∀ p ∈ splitOn '-' (strL "abc-def"), goAtoi p = none)
      ∧ (parsePattern (strL "abc-def")).1 = [])
    ∧ (matchSyllablePatternWithChars (strL "") [] (strL "") = true ∧ fields (strL "") = [])
    ∧ matchSyllablePatternWithChars (strL "xy") [] (strL "y") = false :=
  ⟨⟨by decide, claim_C10.1 (strL "abc-def") (by decide)⟩,
   ⟨by decide, claim_C10.2.1 (strL "") (strL "") (by decide)⟩,
   claim_C10.2.2.1 (strL "xy") (strL "y") 'x' (by decide) (by decide)⟩

end WordleVN
